import Mathlib

/- A shallow embedding of the link liveness checking scripts of this
repository: the prober (ping), the pass executors (fast concurrent chunked
mode and slow sequential mode), and the convergence controllers (the retry
loops of the main functions of ping-script.js, of the part_002 variant and
of the three pass variants in part_000 and part_001), together with proofs
about the specified properties. Targets are an abstract type; network
messages are modelled as opaque numeric ids. -/

namespace LinkPing

variable {α : Type}

/-- ProbeOutcome of the data model: Live, or Unreachable with a reason; a bad
status carries the numeric code, a transport failure carries the message. -/
inductive Outcome where
  | live
  | badStatus (code : Nat)
  | transportFailure (msg : Nat)
deriving DecidableEq

/-- Result of one fetch of a target: a response with a status code, or a
network error (DNS, timeout, reset) thrown by the fetch call. -/
inductive FetchResult where
  | resp (status : Nat)
  | netError (msg : Nat)
deriving DecidableEq

/-- The ok field of a fetch Response: status in 200..299. -/
def statusOk (s : Nat) : Bool := decide (200 ≤ s ∧ s ≤ 299)

/-- The prober of src/ping-script.js lines 12 to 30. The FetchResult argument
carries either the response or the thrown network error; the netError arm is
the catch block. The Except layer is the exception channel towards the
enclosing pass: an uncaught exception would surface as Except.error, and ping
always answers with Except.ok, returning the link object on failure and none
on success, exactly as the source. -/
def ping (linkObj : α) (fetch : FetchResult) : Except Nat (Option α) :=
  match fetch with
  | .resp status => if !statusOk status then .ok (some linkObj) else .ok none
  | .netError _ => .ok (some linkObj)

/-- Whether one fetch result makes ping report the link as failed. -/
def fetchFails : FetchResult → Bool
  | .resp s => !statusOk s
  | .netError _ => true

/-- The classified outcome of one fetch, the observation that ping writes to
the console (status code on a bad response, message on a network error). -/
def outcomeOf : FetchResult → Outcome
  | .resp s => if statusOk s then .live else .badStatus s
  | .netError m => .transportFailure m

/-- Success of one fetch, as tested by the inline retry prober of part_001. -/
def fetchOk : FetchResult → Bool
  | .resp s => statusOk s
  | .netError _ => false

theorem ping_eq (l : α) (f : FetchResult) :
    ping l f = Except.ok (if fetchFails f then some l else none) := by
  cases f with
  | resp s => by_cases h : statusOk s = true <;> simp [ping, fetchFails, h]
  | netError m => simp [ping, fetchFails]

theorem fetchFails_iff (f : FetchResult) :
    fetchFails f = true ↔ outcomeOf f ≠ Outcome.live := by
  cases f with
  | resp s =>
    by_cases h : statusOk s = true <;> simp [fetchFails, outcomeOf, h]
  | netError m => simp [fetchFails, outcomeOf]

theorem fetchOk_eq_not_fails (f : FetchResult) : fetchOk f = !fetchFails f := by
  cases f <;> simp [fetchOk, fetchFails]

/- Pass executor: the two modes of pingPass in src/ping-script.js. -/

/-- Delay between sequential probes, src/ping-script.js line 6. -/
def RETRY_DELAY_MS : Nat := 500

/-- Chunk size of the fast concurrent pass, src/ping-script.js line 79. -/
def BATCH_SIZE : Nat := 50

/-- The chunks produced by the loop for i in 0, bs, 2*bs, ... over
links.slice(i, i + bs). Faithful for bs at least 1; the scripts call it with
bs = 50, 15, a random size in 5..15, or 1. -/
def chunksOf (bs : Nat) : List α → List (List α)
  | [] => []
  | x :: xs => (x :: xs).take bs :: chunksOf bs (xs.drop (bs - 1))
termination_by links => links.length
decreasing_by
  simp only [List.length_drop, List.length_cons]
  omega

/-- MODE 1 of pingPass (and concurrentPingPass of part_000 and part_001):
probe a chunk of bs links concurrently, collect the failed links of the chunk
in result order, then move to the next chunk. -/
def concurrentPingPass (fails : α → Bool) (bs : Nat) : List α → List α
  | [] => []
  | x :: xs =>
      ((x :: xs).take bs).filter fails ++ concurrentPingPass fails bs (xs.drop (bs - 1))
termination_by links => links.length
decreasing_by
  simp only [List.length_drop, List.length_cons]
  omega

/-- MODE 2 of pingPass: probe the links one by one, pushing each failed link
in input order (the sleep after each probe is modelled in seqTrace). -/
def sequentialPingPass (fails : α → Bool) : List α → List α
  | [] => []
  | l :: ls =>
      if fails l then l :: sequentialPingPass fails ls else sequentialPingPass fails ls

/-- One event of a pass: a probe of a link with its classified outcome, or a
sleep of the given number of milliseconds. -/
inductive Event (α : Type) where
  | probe (l : α) (out : Outcome)
  | sleep (ms : Nat)
deriving DecidableEq

/-- The link probed by an event, if any. -/
def probeOf : Event α → Option α
  | .probe l _ => some l
  | .sleep _ => none

/-- The timeline of the slow sequential mode, src/ping-script.js lines 64 to
70: for each link in order, an awaited probe followed by an awaited sleep of
RETRY_DELAY_MS milliseconds, on success as on failure. -/
def seqTrace (fetchOf : α → FetchResult) : List α → List (Event α)
  | [] => []
  | l :: ls =>
      Event.probe l (outcomeOf (fetchOf l)) :: Event.sleep RETRY_DELAY_MS :: seqTrace fetchOf ls

/-- pingPass of src/ping-script.js lines 33 to 74: fast concurrent on pass 1,
slow sequential on every later pass; returns the failed links. -/
def pingPass (fails : α → Bool) (bs passCount : Nat) (links : List α) : List α :=
  if passCount = 1 then concurrentPingPass fails bs links else sequentialPingPass fails links

theorem sequentialPingPass_eq_filter (fails : α → Bool) (links : List α) :
    sequentialPingPass fails links = links.filter fails := by
  induction links with
  | nil => rfl
  | cons l ls ih =>
    by_cases h : fails l = true <;> simp [sequentialPingPass, h, ih, List.filter_cons]

theorem concurrentPingPass_eq_filter (fails : α → Bool) (bs : Nat) (hbs : 1 ≤ bs) :
    ∀ links : List α, concurrentPingPass fails bs links = links.filter fails := by
  intro links
  induction links using concurrentPingPass.induct fails bs with
  | case1 => simp [concurrentPingPass]
  | case2 x xs ih =>
    obtain ⟨k, rfl⟩ : ∃ k, bs = k + 1 := ⟨bs - 1, by omega⟩
    rw [concurrentPingPass]
    rw [ih]
    conv_rhs => rw [← List.take_append_drop (k + 1) (x :: xs)]
    rw [List.filter_append]
    simp [List.drop_succ_cons]

theorem concurrentPingPass_length_le (fails : α → Bool) (bs : Nat) :
    ∀ links : List α, (concurrentPingPass fails bs links).length ≤ links.length := by
  intro links
  induction links using concurrentPingPass.induct fails bs with
  | case1 => simp [concurrentPingPass]
  | case2 x xs ih =>
    rw [concurrentPingPass]
    have h1 := List.length_filter_le fails ((x :: xs).take bs)
    simp only [List.length_append, List.length_take, List.length_cons, List.length_drop] at *
    omega

theorem pingPass_eq_filter (fails : α → Bool) (bs pc : Nat) (hbs : 1 ≤ bs)
    (links : List α) : pingPass fails bs pc links = links.filter fails := by
  unfold pingPass
  split
  · exact concurrentPingPass_eq_filter fails bs hbs links
  · exact sequentialPingPass_eq_filter fails links

theorem pingPass_length_le (fails : α → Bool) (bs pc : Nat) (links : List α) :
    (pingPass fails bs pc links).length ≤ links.length := by
  unfold pingPass
  split
  · exact concurrentPingPass_length_le fails bs links
  · rw [sequentialPingPass_eq_filter]
    exact List.length_filter_le fails links

/- Pass executors in the exception channel: the sequential for-of loop and
the chunked Promise.all loop, with an uncaught exception of any probe
modelled as Except.error, which would abort the whole pass. -/

/-- The slow sequential loop run over a prober that may throw: a thrown
probe aborts the pass, an ok probe pushes the failed link and continues. -/
def seqPassE (pingOf : α → Except Nat (Option α)) : List α → Except Nat (List α)
  | [] => .ok []
  | l :: ls =>
    match pingOf l with
    | .error e => .error e
    | .ok r =>
      match seqPassE pingOf ls with
      | .error e => .error e
      | .ok rest => .ok (match r with | some fl => fl :: rest | none => rest)

/-- The chunked concurrent loop run over a prober that may throw: Promise.all
of a chunk rejects if any probe of the chunk throws, aborting the pass. -/
def concPassE (pingOf : α → Except Nat (Option α)) (bs : Nat) : List α → Except Nat (List α)
  | [] => .ok []
  | x :: xs =>
    match ((x :: xs).take bs).mapM pingOf with
    | .error e => .error e
    | .ok results =>
      match concPassE pingOf bs (xs.drop (bs - 1)) with
      | .error e => .error e
      | .ok rest => .ok (results.filterMap id ++ rest)
termination_by links => links.length
decreasing_by
  simp only [List.length_drop, List.length_cons]
  omega

theorem filterMap_if_eq_filter (fails : α → Bool) (links : List α) :
    links.filterMap (fun l => if fails l then some l else none) = links.filter fails := by
  induction links with
  | nil => rfl
  | cons l ls ih =>
    by_cases h : fails l = true <;>
      simp [List.filterMap_cons, List.filter_cons, h, ih]

theorem mapM_ping_eq (beh : α → FetchResult) (chunk : List α) :
    chunk.mapM (fun l => ping l (beh l)) =
      Except.ok (chunk.map (fun l => if fetchFails (beh l) then some l else none)) := by
  induction chunk with
  | nil => rfl
  | cons l ls ih =>
    rw [List.mapM_cons, ping_eq, ih]
    rfl

theorem seqPassE_ok (beh : α → FetchResult) (links : List α) :
    seqPassE (fun l => ping l (beh l)) links =
      Except.ok (sequentialPingPass (fun l => fetchFails (beh l)) links) := by
  induction links with
  | nil => rfl
  | cons l ls ih =>
    rw [seqPassE, ping_eq, ih]
    by_cases h : fetchFails (beh l) = true <;> simp [sequentialPingPass, h]

theorem concPassE_ok (beh : α → FetchResult) (bs : Nat) (links : List α) :
    concPassE (fun l => ping l (beh l)) bs links =
      Except.ok (concurrentPingPass (fun l => fetchFails (beh l)) bs links) := by
  induction links using concurrentPingPass.induct (fun l => fetchFails (beh l)) bs with
  | case1 => simp [concPassE, concurrentPingPass]
  | case2 x xs ih =>
    rw [concPassE, mapM_ping_eq, ih, concurrentPingPass]
    simp only [List.filterMap_map, Function.id_comp, filterMap_if_eq_filter]

/- Convergence controller of src/ping-script.js: the retry loop of main,
lines 94 to 129. -/

/-- Final state of a controller run: the passCount and totalSucceeded
counters, the currentLinks variable (whose contents are persisted as the
unresolvable output when non empty), and the accumulated stream of per probe
progress observations (pass number, target, classified outcome). -/
structure RunResult (α : Type) where
  passCount : Nat
  totalSucceeded : Nat
  currentLinks : List α
  log : List (Nat × α × Outcome)
deriving DecidableEq

/-- The progress observations emitted during one pass: every link of the pass
input is probed exactly once and logged with its classified outcome. -/
def passLog (b : Nat → α → FetchResult) (pc : Nat) (links : List α) :
    List (Nat × α × Outcome) :=
  links.map (fun l => (pc, l, outcomeOf (b pc l)))

/-- The retry loop of main in src/ping-script.js, lines 94 to 129, from a
given loop state. b gives the fetch result of each link in each pass (each
link is fetched exactly once per pass). Note that both break statements leave
currentLinks at the value it had before the pass. -/
def mainLoop (b : Nat → α → FetchResult) (links : List α)
    (passCount totalSucceeded : Nat) (log : List (Nat × α × Outcome)) : RunResult α :=
  match links with
  | [] => ⟨passCount, totalSucceeded, [], log⟩
  | x :: xs =>
    let pc := passCount + 1
    let failed := pingPass (fun l => fetchFails (b pc l)) BATCH_SIZE pc (x :: xs)
    let log2 := log ++ passLog b pc (x :: xs)
    let ts := totalSucceeded + ((x :: xs).length - failed.length)
    if h0 : failed.length = 0 then ⟨pc, ts, x :: xs, log2⟩
    else if hst : failed.length = (x :: xs).length ∧ 2 < pc then ⟨pc, ts, x :: xs, log2⟩
    else mainLoop b failed pc ts log2
termination_by links.length * 4 + (3 - passCount)
decreasing_by
  have h0e : ¬ (pingPass (fun l => fetchFails (b (passCount + 1) l)) BATCH_SIZE
      (passCount + 1) (x :: xs)).length = 0 := h0
  have hste : ¬ ((pingPass (fun l => fetchFails (b (passCount + 1) l)) BATCH_SIZE
      (passCount + 1) (x :: xs)).length = (x :: xs).length ∧ 2 < passCount + 1) := hst
  have hle := pingPass_length_le (fun l => fetchFails (b (passCount + 1) l)) BATCH_SIZE
    (passCount + 1) (x :: xs)
  by_cases heq : (pingPass (fun l => fetchFails (b (passCount + 1) l)) BATCH_SIZE
      (passCount + 1) (x :: xs)).length = (x :: xs).length
  · have hpc : ¬ 2 < passCount + 1 := fun h => hste ⟨heq, h⟩
    simp only [List.length_cons] at *
    omega
  · simp only [List.length_cons] at *
    omega

/-- A full run of the retry loop from the initial state (passCount 0,
totalSucceeded 0, empty log). -/
def mainRun (b : Nat → α → FetchResult) (links : List α) : RunResult α :=
  mainLoop b links 0 0 []

/- Convergence controller of the part_002 variant: identical retry loop, but
the slow sequential mode starts at pass SLOW_PASS_START_COUNT = 5 and the
stagnation guard fires exactly on a stagnant slow pass. -/

/-- Slow sequential mode starts at pass 5, src/unnamed/part_002 line 8. -/
def SLOW_PASS_START_COUNT : Nat := 5

/-- Chunk size of the part_002 concurrent passes, src/unnamed/part_002
line 84. -/
def BATCH_SIZE_P2 : Nat := 15

/-- pingPass of src/unnamed/part_002 lines 34 to 79: fast concurrent on
passes 1 to 4, slow sequential from pass 5 on. -/
def pingPassP2 (fails : α → Bool) (bs passCount : Nat) (links : List α) : List α :=
  if passCount < SLOW_PASS_START_COUNT then concurrentPingPass fails bs links
  else sequentialPingPass fails links

theorem pingPassP2_eq_filter (fails : α → Bool) (bs pc : Nat) (hbs : 1 ≤ bs)
    (links : List α) : pingPassP2 fails bs pc links = links.filter fails := by
  unfold pingPassP2
  split
  · exact concurrentPingPass_eq_filter fails bs hbs links
  · exact sequentialPingPass_eq_filter fails links

theorem pingPassP2_length_le (fails : α → Bool) (bs pc : Nat) (links : List α) :
    (pingPassP2 fails bs pc links).length ≤ links.length := by
  unfold pingPassP2
  split
  · exact concurrentPingPass_length_le fails bs links
  · rw [sequentialPingPass_eq_filter]
    exact List.length_filter_le fails links

/-- The retry loop of main in src/unnamed/part_002, lines 99 to 137: as
mainLoop, with the stagnation guard requiring a slow pass (pass 5 or later)
instead of passCount greater than 2. -/
def mainLoopP2 (b : Nat → α → FetchResult) (links : List α)
    (passCount totalSucceeded : Nat) (log : List (Nat × α × Outcome)) : RunResult α :=
  match links with
  | [] => ⟨passCount, totalSucceeded, [], log⟩
  | x :: xs =>
    let pc := passCount + 1
    let failed := pingPassP2 (fun l => fetchFails (b pc l)) BATCH_SIZE_P2 pc (x :: xs)
    let log2 := log ++ passLog b pc (x :: xs)
    let ts := totalSucceeded + ((x :: xs).length - failed.length)
    if h0 : failed.length = 0 then ⟨pc, ts, x :: xs, log2⟩
    else if hst : ¬ pc < SLOW_PASS_START_COUNT ∧ failed.length = (x :: xs).length then
      ⟨pc, ts, x :: xs, log2⟩
    else mainLoopP2 b failed pc ts log2
termination_by links.length * 8 + (5 - passCount)
decreasing_by
  have h0e : ¬ (pingPassP2 (fun l => fetchFails (b (passCount + 1) l)) BATCH_SIZE_P2
      (passCount + 1) (x :: xs)).length = 0 := h0
  have hste : ¬ (¬ passCount + 1 < SLOW_PASS_START_COUNT ∧
      (pingPassP2 (fun l => fetchFails (b (passCount + 1) l)) BATCH_SIZE_P2
        (passCount + 1) (x :: xs)).length = (x :: xs).length) := hst
  have hle := pingPassP2_length_le (fun l => fetchFails (b (passCount + 1) l)) BATCH_SIZE_P2
    (passCount + 1) (x :: xs)
  by_cases heq : (pingPassP2 (fun l => fetchFails (b (passCount + 1) l)) BATCH_SIZE_P2
      (passCount + 1) (x :: xs)).length = (x :: xs).length
  · have hpc : passCount + 1 < SLOW_PASS_START_COUNT := by
      by_contra h
      exact hste ⟨h, heq⟩
    simp only [SLOW_PASS_START_COUNT] at hpc
    simp only [List.length_cons] at *
    omega
  · simp only [List.length_cons] at *
    omega

/-- A full run of the part_002 retry loop from the initial state. -/
def mainRunP2 (b : Nat → α → FetchResult) (links : List α) : RunResult α :=
  mainLoopP2 b links 0 0 []

/- Convergence controller of part_000 and of the retry variant in part_001:
a for loop over a fixed list of pass configurations (two random batch sizes,
then batch size 1), breaking as soon as the remaining set is empty; the
passCount counter is incremented before the emptiness test. -/

/-- The three pass loop of main in src/unnamed/part_000 lines 82 to 107 and
src/unnamed/part_001 lines 173 to 198, over an arbitrary configs list of
batch sizes. Every pass uses the concurrent executor (batch size 1 forces
sequential execution). -/
def threePassLoop (fails : Nat → α → Bool) (configs : List Nat) (links : List α)
    (passCount totalSucceeded : Nat) : Nat × Nat × List α :=
  match configs with
  | [] => (passCount, totalSucceeded, links)
  | bs :: rest =>
    let pc := passCount + 1
    match links with
    | [] => (pc, totalSucceeded, [])
    | x :: xs =>
      let failed := concurrentPingPass (fails pc) bs (x :: xs)
      threePassLoop fails rest failed pc (totalSucceeded + ((x :: xs).length - failed.length))

/- Step lemmas for the two retry loops, with the failed set written as the
filter of the pass input (legitimate because both scripts call the concurrent
executor with a positive batch size). -/

theorem mainLoop_nil (b : Nat → α → FetchResult) (pc ts : Nat)
    (log : List (Nat × α × Outcome)) :
    mainLoop b [] pc ts log = ⟨pc, ts, [], log⟩ := by
  rw [mainLoop]

theorem mainLoop_cons (b : Nat → α → FetchResult) (x : α) (xs : List α) (pc ts : Nat)
    (log : List (Nat × α × Outcome)) :
    mainLoop b (x :: xs) pc ts log =
      (let failed := (x :: xs).filter (fun l => fetchFails (b (pc + 1) l))
       let log2 := log ++ passLog b (pc + 1) (x :: xs)
       let ts2 := ts + ((x :: xs).length - failed.length)
       if failed.length = 0 then ⟨pc + 1, ts2, x :: xs, log2⟩
       else if failed.length = (x :: xs).length ∧ 2 < pc + 1 then ⟨pc + 1, ts2, x :: xs, log2⟩
       else mainLoop b failed (pc + 1) ts2 log2) := by
  rw [mainLoop]
  simp only [pingPass_eq_filter (fun l => fetchFails (b (pc + 1) l)) BATCH_SIZE (pc + 1)
    (by norm_num [BATCH_SIZE]) (x :: xs), dite_eq_ite]

theorem mainLoopP2_nil (b : Nat → α → FetchResult) (pc ts : Nat)
    (log : List (Nat × α × Outcome)) :
    mainLoopP2 b [] pc ts log = ⟨pc, ts, [], log⟩ := by
  rw [mainLoopP2]

theorem mainLoopP2_cons (b : Nat → α → FetchResult) (x : α) (xs : List α) (pc ts : Nat)
    (log : List (Nat × α × Outcome)) :
    mainLoopP2 b (x :: xs) pc ts log =
      (let failed := (x :: xs).filter (fun l => fetchFails (b (pc + 1) l))
       let log2 := log ++ passLog b (pc + 1) (x :: xs)
       let ts2 := ts + ((x :: xs).length - failed.length)
       if failed.length = 0 then ⟨pc + 1, ts2, x :: xs, log2⟩
       else if ¬ pc + 1 < SLOW_PASS_START_COUNT ∧ failed.length = (x :: xs).length then
         ⟨pc + 1, ts2, x :: xs, log2⟩
       else mainLoopP2 b failed (pc + 1) ts2 log2) := by
  rw [mainLoopP2]
  simp only [pingPassP2_eq_filter (fun l => fetchFails (b (pc + 1) l)) BATCH_SIZE_P2 (pc + 1)
    (by norm_num [BATCH_SIZE_P2]) (x :: xs), dite_eq_ite]

/- Termination bounds: the passCount of the final state is bounded by the
size of the input plus a constant, for every probe behaviour, so neither
retry loop can run forever. -/

theorem mainLoop_passCount_le (b : Nat → α → FetchResult) :
    ∀ (n : Nat) (links : List α) (pc ts : Nat) (log : List (Nat × α × Outcome)),
      links.length * 4 + (3 - pc) ≤ n →
      (mainLoop b links pc ts log).passCount ≤ pc + links.length + (3 - pc) := by
  intro n
  induction n with
  | zero =>
    intro links pc ts log h
    cases links with
    | nil =>
      rw [mainLoop_nil]
      simp
    | cons x xs =>
      simp only [List.length_cons] at h
      omega
  | succ n ih =>
    intro links pc ts log h
    cases links with
    | nil =>
      rw [mainLoop_nil]
      simp
    | cons x xs =>
      rw [mainLoop_cons]
      have hle : ((x :: xs).filter (fun l => fetchFails (b (pc + 1) l))).length ≤
          (x :: xs).length := List.length_filter_le _ _
      by_cases h0 : ((x :: xs).filter (fun l => fetchFails (b (pc + 1) l))).length = 0
      · rw [if_pos h0]
        simp only [List.length_cons] at *
        simp
        omega
      · rw [if_neg h0]
        by_cases hst : ((x :: xs).filter (fun l => fetchFails (b (pc + 1) l))).length =
            (x :: xs).length ∧ 2 < pc + 1
        · rw [if_pos hst]
          simp only [List.length_cons] at *
          simp
          omega
        · rw [if_neg hst]
          rcases Nat.lt_or_ge ((x :: xs).filter (fun l => fetchFails (b (pc + 1) l))).length
              (x :: xs).length with hlt | hge
          · have hm : ((x :: xs).filter (fun l => fetchFails (b (pc + 1) l))).length * 4 +
                (3 - (pc + 1)) ≤ n := by
              simp only [List.length_cons] at *
              omega
            have hrec := ih _ (pc + 1) (ts + ((x :: xs).length -
              ((x :: xs).filter (fun l => fetchFails (b (pc + 1) l))).length))
              (log ++ passLog b (pc + 1) (x :: xs)) hm
            simp only [List.length_cons] at *
            omega
          · have heq : ((x :: xs).filter (fun l => fetchFails (b (pc + 1) l))).length =
                (x :: xs).length := le_antisymm hle hge
            have hpc : ¬ 2 < pc + 1 := fun hh => hst ⟨heq, hh⟩
            have hm : ((x :: xs).filter (fun l => fetchFails (b (pc + 1) l))).length * 4 +
                (3 - (pc + 1)) ≤ n := by
              simp only [List.length_cons] at *
              omega
            have hrec := ih _ (pc + 1) (ts + ((x :: xs).length -
              ((x :: xs).filter (fun l => fetchFails (b (pc + 1) l))).length))
              (log ++ passLog b (pc + 1) (x :: xs)) hm
            simp only [List.length_cons] at *
            omega

theorem mainLoopP2_passCount_le (b : Nat → α → FetchResult) :
    ∀ (n : Nat) (links : List α) (pc ts : Nat) (log : List (Nat × α × Outcome)),
      links.length * 8 + (5 - pc) ≤ n →
      (mainLoopP2 b links pc ts log).passCount ≤ pc + links.length + (5 - pc) := by
  intro n
  induction n with
  | zero =>
    intro links pc ts log h
    cases links with
    | nil =>
      rw [mainLoopP2_nil]
      simp
    | cons x xs =>
      simp only [List.length_cons] at h
      omega
  | succ n ih =>
    intro links pc ts log h
    cases links with
    | nil =>
      rw [mainLoopP2_nil]
      simp
    | cons x xs =>
      rw [mainLoopP2_cons]
      have hle : ((x :: xs).filter (fun l => fetchFails (b (pc + 1) l))).length ≤
          (x :: xs).length := List.length_filter_le _ _
      by_cases h0 : ((x :: xs).filter (fun l => fetchFails (b (pc + 1) l))).length = 0
      · rw [if_pos h0]
        simp only [List.length_cons] at *
        simp
        omega
      · rw [if_neg h0]
        by_cases hst : ¬ pc + 1 < SLOW_PASS_START_COUNT ∧
            ((x :: xs).filter (fun l => fetchFails (b (pc + 1) l))).length = (x :: xs).length
        · rw [if_pos hst]
          simp only [List.length_cons] at *
          simp
          omega
        · rw [if_neg hst]
          rcases Nat.lt_or_ge ((x :: xs).filter (fun l => fetchFails (b (pc + 1) l))).length
              (x :: xs).length with hlt | hge
          · have hm : ((x :: xs).filter (fun l => fetchFails (b (pc + 1) l))).length * 8 +
                (5 - (pc + 1)) ≤ n := by
              simp only [List.length_cons] at *
              omega
            have hrec := ih _ (pc + 1) (ts + ((x :: xs).length -
              ((x :: xs).filter (fun l => fetchFails (b (pc + 1) l))).length))
              (log ++ passLog b (pc + 1) (x :: xs)) hm
            simp only [List.length_cons] at *
            omega
          · have heq : ((x :: xs).filter (fun l => fetchFails (b (pc + 1) l))).length =
                (x :: xs).length := le_antisymm hle hge
            have hpc : pc + 1 < SLOW_PASS_START_COUNT := by
              by_contra hh
              exact hst ⟨hh, heq⟩
            simp only [SLOW_PASS_START_COUNT] at hpc
            have hm : ((x :: xs).filter (fun l => fetchFails (b (pc + 1) l))).length * 8 +
                (5 - (pc + 1)) ≤ n := by
              simp only [List.length_cons] at *
              omega
            have hrec := ih _ (pc + 1) (ts + ((x :: xs).length -
              ((x :: xs).filter (fun l => fetchFails (b (pc + 1) l))).length))
              (log ++ passLog b (pc + 1) (x :: xs)) hm
            simp only [List.length_cons] at *
            omega

theorem threePassLoop_passCount_le (fails : Nat → α → Bool) :
    ∀ (configs : List Nat) (links : List α) (pc ts : Nat),
      (threePassLoop fails configs links pc ts).1 ≤ pc + configs.length := by
  intro configs
  induction configs with
  | nil =>
    intro links pc ts
    simp [threePassLoop]
  | cons bs rest ih =>
    intro links pc ts
    cases links with
    | nil => simp [threePassLoop]
    | cons x xs =>
      rw [threePassLoop]
      have := ih (concurrentPingPass (fails (pc + 1)) bs (x :: xs)) (pc + 1)
        (ts + ((x :: xs).length - (concurrentPingPass (fails (pc + 1)) bs (x :: xs)).length))
      simp only [List.length_cons] at *
      omega

/- Invariants of the retry loops: a link that fails every probe stays in
currentLinks; the log only grows, and every log entry records the classified
outcome of the fetch of its target in its pass. -/

theorem filter_measure_step (F : List α) (x : α) (xs : List α) (pc n : Nat)
    (hle : F.length ≤ (x :: xs).length)
    (h : (x :: xs).length * 4 + (3 - pc) ≤ n + 1)
    (hst : ¬ (F.length = (x :: xs).length ∧ 2 < pc + 1)) :
    F.length * 4 + (3 - (pc + 1)) ≤ n := by
  by_cases heq : F.length = (x :: xs).length
  · have hpc : ¬ 2 < pc + 1 := fun hh => hst ⟨heq, hh⟩
    simp only [List.length_cons] at *
    omega
  · simp only [List.length_cons] at *
    omega

theorem filter_measure_stepP2 (F : List α) (x : α) (xs : List α) (pc n : Nat)
    (hle : F.length ≤ (x :: xs).length)
    (h : (x :: xs).length * 8 + (5 - pc) ≤ n + 1)
    (hst : ¬ (¬ pc + 1 < SLOW_PASS_START_COUNT ∧ F.length = (x :: xs).length)) :
    F.length * 8 + (5 - (pc + 1)) ≤ n := by
  by_cases heq : F.length = (x :: xs).length
  · have hpc : pc + 1 < SLOW_PASS_START_COUNT := by
      by_contra hh
      exact hst ⟨hh, heq⟩
    simp only [SLOW_PASS_START_COUNT] at hpc
    simp only [List.length_cons] at *
    omega
  · simp only [List.length_cons] at *
    omega

theorem passLog_ok (b : Nat → α → FetchResult) (pc : Nat) (links : List α) :
    ∀ e ∈ passLog b pc links, e.2.2 = outcomeOf (b e.1 e.2.1) := by
  intro e he
  simp only [passLog, List.mem_map] at he
  obtain ⟨l, hl, rfl⟩ := he
  rfl

theorem mainLoop_mem (b : Nat → α → FetchResult) (t : α)
    (hf : ∀ p, fetchFails (b p t) = true) :
    ∀ (n : Nat) (links : List α) (pc ts : Nat) (log : List (Nat × α × Outcome)),
      links.length * 4 + (3 - pc) ≤ n → t ∈ links →
      t ∈ (mainLoop b links pc ts log).currentLinks := by
  intro n
  induction n with
  | zero =>
    intro links pc ts log h ht
    cases links with
    | nil => exact absurd ht (List.not_mem_nil t)
    | cons x xs =>
      simp only [List.length_cons] at h
      omega
  | succ n ih =>
    intro links pc ts log h ht
    cases links with
    | nil => exact absurd ht (List.not_mem_nil t)
    | cons x xs =>
      rw [mainLoop_cons]
      by_cases h0 : ((x :: xs).filter (fun l => fetchFails (b (pc + 1) l))).length = 0
      · rw [if_pos h0]
        exact ht
      · rw [if_neg h0]
        by_cases hst : ((x :: xs).filter (fun l => fetchFails (b (pc + 1) l))).length =
            (x :: xs).length ∧ 2 < pc + 1
        · rw [if_pos hst]
          exact ht
        · rw [if_neg hst]
          exact ih _ (pc + 1) _ _
            (filter_measure_step _ x xs pc n (List.length_filter_le _ _) h hst)
            (List.mem_filter.mpr ⟨ht, hf (pc + 1)⟩)

theorem mainLoop_log_mono (b : Nat → α → FetchResult) (e : Nat × α × Outcome) :
    ∀ (n : Nat) (links : List α) (pc ts : Nat) (log : List (Nat × α × Outcome)),
      links.length * 4 + (3 - pc) ≤ n → e ∈ log →
      e ∈ (mainLoop b links pc ts log).log := by
  intro n
  induction n with
  | zero =>
    intro links pc ts log h he
    cases links with
    | nil =>
      rw [mainLoop_nil]
      exact he
    | cons x xs =>
      simp only [List.length_cons] at h
      omega
  | succ n ih =>
    intro links pc ts log h he
    cases links with
    | nil =>
      rw [mainLoop_nil]
      exact he
    | cons x xs =>
      rw [mainLoop_cons]
      by_cases h0 : ((x :: xs).filter (fun l => fetchFails (b (pc + 1) l))).length = 0
      · rw [if_pos h0]
        exact List.mem_append_left _ he
      · rw [if_neg h0]
        by_cases hst : ((x :: xs).filter (fun l => fetchFails (b (pc + 1) l))).length =
            (x :: xs).length ∧ 2 < pc + 1
        · rw [if_pos hst]
          exact List.mem_append_left _ he
        · rw [if_neg hst]
          exact ih _ (pc + 1) _ _
            (filter_measure_step _ x xs pc n (List.length_filter_le _ _) h hst)
            (List.mem_append_left _ he)

theorem mainLoop_log_ok (b : Nat → α → FetchResult) :
    ∀ (n : Nat) (links : List α) (pc ts : Nat) (log : List (Nat × α × Outcome)),
      links.length * 4 + (3 - pc) ≤ n →
      (∀ e ∈ log, e.2.2 = outcomeOf (b e.1 e.2.1)) →
      ∀ e ∈ (mainLoop b links pc ts log).log, e.2.2 = outcomeOf (b e.1 e.2.1) := by
  intro n
  induction n with
  | zero =>
    intro links pc ts log h hlog
    cases links with
    | nil =>
      rw [mainLoop_nil]
      exact hlog
    | cons x xs =>
      simp only [List.length_cons] at h
      omega
  | succ n ih =>
    intro links pc ts log h hlog
    cases links with
    | nil =>
      rw [mainLoop_nil]
      exact hlog
    | cons x xs =>
      have hlog2 : ∀ e ∈ log ++ passLog b (pc + 1) (x :: xs),
          e.2.2 = outcomeOf (b e.1 e.2.1) := by
        intro e he
        rcases List.mem_append.mp he with h1 | h2
        · exact hlog e h1
        · exact passLog_ok b (pc + 1) (x :: xs) e h2
      rw [mainLoop_cons]
      by_cases h0 : ((x :: xs).filter (fun l => fetchFails (b (pc + 1) l))).length = 0
      · rw [if_pos h0]
        exact hlog2
      · rw [if_neg h0]
        by_cases hst : ((x :: xs).filter (fun l => fetchFails (b (pc + 1) l))).length =
            (x :: xs).length ∧ 2 < pc + 1
        · rw [if_pos hst]
          exact hlog2
        · rw [if_neg hst]
          exact ih _ (pc + 1) _ _
            (filter_measure_step _ x xs pc n (List.length_filter_le _ _) h hst) hlog2

theorem mainLoopP2_mem (b : Nat → α → FetchResult) (t : α)
    (hf : ∀ p, fetchFails (b p t) = true) :
    ∀ (n : Nat) (links : List α) (pc ts : Nat) (log : List (Nat × α × Outcome)),
      links.length * 8 + (5 - pc) ≤ n → t ∈ links →
      t ∈ (mainLoopP2 b links pc ts log).currentLinks := by
  intro n
  induction n with
  | zero =>
    intro links pc ts log h ht
    cases links with
    | nil => exact absurd ht (List.not_mem_nil t)
    | cons x xs =>
      simp only [List.length_cons] at h
      omega
  | succ n ih =>
    intro links pc ts log h ht
    cases links with
    | nil => exact absurd ht (List.not_mem_nil t)
    | cons x xs =>
      rw [mainLoopP2_cons]
      by_cases h0 : ((x :: xs).filter (fun l => fetchFails (b (pc + 1) l))).length = 0
      · rw [if_pos h0]
        exact ht
      · rw [if_neg h0]
        by_cases hst : ¬ pc + 1 < SLOW_PASS_START_COUNT ∧
            ((x :: xs).filter (fun l => fetchFails (b (pc + 1) l))).length = (x :: xs).length
        · rw [if_pos hst]
          exact ht
        · rw [if_neg hst]
          exact ih _ (pc + 1) _ _
            (filter_measure_stepP2 _ x xs pc n (List.length_filter_le _ _) h hst)
            (List.mem_filter.mpr ⟨ht, hf (pc + 1)⟩)

theorem mainLoopP2_log_mono (b : Nat → α → FetchResult) (e : Nat × α × Outcome) :
    ∀ (n : Nat) (links : List α) (pc ts : Nat) (log : List (Nat × α × Outcome)),
      links.length * 8 + (5 - pc) ≤ n → e ∈ log →
      e ∈ (mainLoopP2 b links pc ts log).log := by
  intro n
  induction n with
  | zero =>
    intro links pc ts log h he
    cases links with
    | nil =>
      rw [mainLoopP2_nil]
      exact he
    | cons x xs =>
      simp only [List.length_cons] at h
      omega
  | succ n ih =>
    intro links pc ts log h he
    cases links with
    | nil =>
      rw [mainLoopP2_nil]
      exact he
    | cons x xs =>
      rw [mainLoopP2_cons]
      by_cases h0 : ((x :: xs).filter (fun l => fetchFails (b (pc + 1) l))).length = 0
      · rw [if_pos h0]
        exact List.mem_append_left _ he
      · rw [if_neg h0]
        by_cases hst : ¬ pc + 1 < SLOW_PASS_START_COUNT ∧
            ((x :: xs).filter (fun l => fetchFails (b (pc + 1) l))).length = (x :: xs).length
        · rw [if_pos hst]
          exact List.mem_append_left _ he
        · rw [if_neg hst]
          exact ih _ (pc + 1) _ _
            (filter_measure_stepP2 _ x xs pc n (List.length_filter_le _ _) h hst)
            (List.mem_append_left _ he)

theorem mainLoopP2_log_ok (b : Nat → α → FetchResult) :
    ∀ (n : Nat) (links : List α) (pc ts : Nat) (log : List (Nat × α × Outcome)),
      links.length * 8 + (5 - pc) ≤ n →
      (∀ e ∈ log, e.2.2 = outcomeOf (b e.1 e.2.1)) →
      ∀ e ∈ (mainLoopP2 b links pc ts log).log, e.2.2 = outcomeOf (b e.1 e.2.1) := by
  intro n
  induction n with
  | zero =>
    intro links pc ts log h hlog
    cases links with
    | nil =>
      rw [mainLoopP2_nil]
      exact hlog
    | cons x xs =>
      simp only [List.length_cons] at h
      omega
  | succ n ih =>
    intro links pc ts log h hlog
    cases links with
    | nil =>
      rw [mainLoopP2_nil]
      exact hlog
    | cons x xs =>
      have hlog2 : ∀ e ∈ log ++ passLog b (pc + 1) (x :: xs),
          e.2.2 = outcomeOf (b e.1 e.2.1) := by
        intro e he
        rcases List.mem_append.mp he with h1 | h2
        · exact hlog e h1
        · exact passLog_ok b (pc + 1) (x :: xs) e h2
      rw [mainLoopP2_cons]
      by_cases h0 : ((x :: xs).filter (fun l => fetchFails (b (pc + 1) l))).length = 0
      · rw [if_pos h0]
        exact hlog2
      · rw [if_neg h0]
        by_cases hst : ¬ pc + 1 < SLOW_PASS_START_COUNT ∧
            ((x :: xs).filter (fun l => fetchFails (b (pc + 1) l))).length = (x :: xs).length
        · rw [if_pos hst]
          exact hlog2
        · rw [if_neg hst]
          exact ih _ (pc + 1) _ _
            (filter_measure_stepP2 _ x xs pc n (List.length_filter_le _ _) h hst) hlog2

theorem mainRun_pass1_logged (b : Nat → α → FetchResult) (x : α) (xs : List α) (t : α)
    (ht : t ∈ x :: xs) :
    (1, t, outcomeOf (b 1 t)) ∈ (mainRun b (x :: xs)).log := by
  have hm : (1, t, outcomeOf (b 1 t)) ∈
      ([] : List (Nat × α × Outcome)) ++ passLog b 1 (x :: xs) := by
    simp only [List.nil_append, passLog, List.mem_map]
    exact ⟨t, ht, rfl⟩
  unfold mainRun
  rw [mainLoop_cons]
  by_cases h0 : ((x :: xs).filter (fun l => fetchFails (b (0 + 1) l))).length = 0
  · rw [if_pos h0]
    exact hm
  · rw [if_neg h0]
    by_cases hst : ((x :: xs).filter (fun l => fetchFails (b (0 + 1) l))).length =
        (x :: xs).length ∧ 2 < 0 + 1
    · rw [if_pos hst]
      exact hm
    · rw [if_neg hst]
      exact mainLoop_log_mono b _ _ _ (0 + 1) _ _ (le_refl _) hm

theorem mainRunP2_pass1_logged (b : Nat → α → FetchResult) (x : α) (xs : List α) (t : α)
    (ht : t ∈ x :: xs) :
    (1, t, outcomeOf (b 1 t)) ∈ (mainRunP2 b (x :: xs)).log := by
  have hm : (1, t, outcomeOf (b 1 t)) ∈
      ([] : List (Nat × α × Outcome)) ++ passLog b 1 (x :: xs) := by
    simp only [List.nil_append, passLog, List.mem_map]
    exact ⟨t, ht, rfl⟩
  unfold mainRunP2
  rw [mainLoopP2_cons]
  by_cases h0 : ((x :: xs).filter (fun l => fetchFails (b (0 + 1) l))).length = 0
  · rw [if_pos h0]
    exact hm
  · rw [if_neg h0]
    by_cases hst : ¬ 0 + 1 < SLOW_PASS_START_COUNT ∧
        ((x :: xs).filter (fun l => fetchFails (b (0 + 1) l))).length = (x :: xs).length
    · rw [if_pos hst]
      exact hm
    · rw [if_neg hst]
      exact mainLoopP2_log_mono b _ _ _ (0 + 1) _ _ (le_refl _) hm

/- The inline retry prober of src/unnamed/part_001. -/

/-- Max attempts for a single link check, src/unnamed/part_001 line 73. -/
def MAX_PING_ATTEMPTS : Nat := 3

/-- Delay between attempts for a single link check, src/unnamed/part_001
line 74. -/
def INLINE_RETRY_DELAY_MS : Nat := 10

/-- One event of the inline retry prober: a fetch attempt with its classified
outcome, or the sleep before the next attempt. -/
inductive REvent where
  | attempt (n : Nat) (out : Outcome)
  | sleep (ms : Nat)
deriving DecidableEq

/-- The attempt loop of ping in src/unnamed/part_001 lines 85 to 121, started
at the given attempt number (the caller starts at 1). Returns none on the
first ok response, the link object after the last allowed attempt fails, and
sleeps INLINE_RETRY_DELAY_MS between consecutive attempts; the event list
records the attempts with their classified outcomes and the sleeps. fetchAt
gives the fetch result of each attempt (a catch of a thrown network error is
the netError case). The first arm is the exit of the for loop condition,
never reached from attempt 1. -/
def pingAttempts (l : α) (fetchAt : Nat → FetchResult) (attempt : Nat) :
    Option α × List REvent :=
  if h1 : MAX_PING_ATTEMPTS < attempt then (some l, [])
  else if h2 : fetchOk (fetchAt attempt) then
    (none, [REvent.attempt attempt (outcomeOf (fetchAt attempt))])
  else if h3 : attempt = MAX_PING_ATTEMPTS then
    (some l, [REvent.attempt attempt (outcomeOf (fetchAt attempt))])
  else
    let rest := pingAttempts l fetchAt (attempt + 1)
    (rest.1, REvent.attempt attempt (outcomeOf (fetchAt attempt)) ::
      REvent.sleep INLINE_RETRY_DELAY_MS :: rest.2)
termination_by MAX_PING_ATTEMPTS + 1 - attempt
decreasing_by
  simp only [MAX_PING_ATTEMPTS] at *
  omega

/-- ping of src/unnamed/part_001: the attempt loop started at attempt 1. -/
def pingRetry (l : α) (fetchAt : Nat → FetchResult) : Option α × List REvent :=
  pingAttempts l fetchAt 1

/-- Scenario fetch behaviour for a single target: attempt 1 gets a 503
response, attempt 2 a network error, every later attempt a 200 response. -/
def scenFetch : Nat → FetchResult :=
  fun a => if a = 1 then .resp 503 else if a = 2 then .netError 7 else .resp 200

/- Order and timing lemmas for the pass executors. -/

theorem seqTrace_eq_join (fetchOf : α → FetchResult) (links : List α) :
    seqTrace fetchOf links =
      (links.map (fun l => [Event.probe l (outcomeOf (fetchOf l)),
        Event.sleep RETRY_DELAY_MS])).flatten := by
  induction links with
  | nil => rfl
  | cons l ls ih => simp [seqTrace, ih]

theorem seqTrace_probes (fetchOf : α → FetchResult) (links : List α) :
    (seqTrace fetchOf links).filterMap probeOf = links := by
  induction links with
  | nil => rfl
  | cons l ls ih => simp [seqTrace, List.filterMap_cons, probeOf, ih]

theorem seqTrace_failed (bh : α → FetchResult) (links : List α) :
    (seqTrace bh links).filterMap
        (fun e => match e with
          | Event.probe l out => if out = Outcome.live then none else some l
          | Event.sleep _ => none) =
      sequentialPingPass (fun l => fetchFails (bh l)) links := by
  induction links with
  | nil => rfl
  | cons l ls ih =>
    by_cases h : fetchFails (bh l) = true
    · have ho : outcomeOf (bh l) ≠ Outcome.live := (fetchFails_iff _).mp h
      simp [seqTrace, List.filterMap_cons, sequentialPingPass, h, ho, ih]
    · have ho : outcomeOf (bh l) = Outcome.live := by
        by_contra hh
        exact h ((fetchFails_iff _).mpr hh)
      simp [seqTrace, List.filterMap_cons, sequentialPingPass, h, ho, ih]

theorem chunksOf_one (links : List α) : chunksOf 1 links = links.map (fun l => [l]) := by
  induction links with
  | nil => simp [chunksOf]
  | cons x xs ih =>
    rw [chunksOf]
    simp [ih]

/- Concrete run evaluations used by the claim theorems below. -/

theorem mainRun_allLive_eval :
    mainRun (fun _ _ => FetchResult.resp 200) [(() : Unit)] =
      ⟨1, 1, [()], [(1, (), Outcome.live)]⟩ := by
  simp [mainRun, mainLoop, pingPass, concurrentPingPass, sequentialPingPass, passLog,
    fetchFails, statusOk, outcomeOf, BATCH_SIZE]

theorem mainRun_all404_eval :
    mainRun (fun _ _ => FetchResult.resp 404) [(() : Unit)] =
      ⟨3, 0, [()], [(1, (), Outcome.badStatus 404), (2, (), Outcome.badStatus 404),
        (3, (), Outcome.badStatus 404)]⟩ := by
  simp [mainRun, mainLoop, pingPass, concurrentPingPass, sequentialPingPass, passLog,
    fetchFails, statusOk, outcomeOf, BATCH_SIZE]

theorem mainRun_all500_eval :
    mainRun (fun _ _ => FetchResult.resp 500) [(() : Unit)] =
      ⟨3, 0, [()], [(1, (), Outcome.badStatus 500), (2, (), Outcome.badStatus 500),
        (3, (), Outcome.badStatus 500)]⟩ := by
  simp [mainRun, mainLoop, pingPass, concurrentPingPass, sequentialPingPass, passLog,
    fetchFails, statusOk, outcomeOf, BATCH_SIZE]

theorem mainRun_netError9_eval :
    mainRun (fun _ _ => FetchResult.netError 9) [(() : Unit)] =
      ⟨3, 0, [()], [(1, (), Outcome.transportFailure 9), (2, (), Outcome.transportFailure 9),
        (3, (), Outcome.transportFailure 9)]⟩ := by
  simp [mainRun, mainLoop, pingPass, concurrentPingPass, sequentialPingPass, passLog,
    fetchFails, statusOk, outcomeOf, BATCH_SIZE]

/- Claim theorems. -/

/-- C1 counterexample: with a single permanently dead target, the run of the
ping-script.js controller executes pass 2 in slow sequential mode (2 is not
the concurrent pass number 1), that pass fails its whole one element input,
a stagnant slow pass; and yet the loop runs a third pass before stopping:
the final passCount is 3, not 2, refuting termination immediately after one
stagnant slow pass. -/
theorem stagnant_slow_pass_two_runs_third_pass :
    (mainRun (fun _ _ => FetchResult.netError 9) [(() : Unit)]).passCount = 3 ∧
    sequentialPingPass (fun l => fetchFails ((fun _ _ => FetchResult.netError 9) 2 l))
      [(() : Unit)] = [()] ∧
    (2 : Nat) ≠ 1 := by
  rw [mainRun_netError9_eval]
  exact ⟨rfl, by decide, by decide⟩

/-- C1 (amended): a stagnant slow pass stops the ping-script.js retry loop
immediately only from pass 3 on, because the guard also requires passCount
greater than 2: from any state about to run pass pc + 1 with pc at least 2
and a nonempty remaining set, a pass whose failed set equals its whole input
ends the loop at that pass, with no change to totalSucceeded. In the
part_002 variant the guard fires exactly at a stagnant slow pass (pass 5 or
later). -/
theorem stagnation_guard_fires_from_pass_three (α : Type) (b : Nat → α → FetchResult)
    (links : List α) (pc ts : Nat) (log : List (Nat × α × Outcome)) :
    (links ≠ [] → 2 ≤ pc →
      links.filter (fun l => fetchFails (b (pc + 1) l)) = links →
      mainLoop b links pc ts log =
        ⟨pc + 1, ts, links, log ++ passLog b (pc + 1) links⟩) ∧
    (links ≠ [] → 4 ≤ pc →
      links.filter (fun l => fetchFails (b (pc + 1) l)) = links →
      mainLoopP2 b links pc ts log =
        ⟨pc + 1, ts, links, log ++ passLog b (pc + 1) links⟩) := by
  constructor
  · intro hne hpc hstag
    cases links with
    | nil => exact absurd rfl hne
    | cons x xs =>
      rw [mainLoop_cons, hstag]
      rw [if_neg (by simp), if_pos ⟨rfl, by omega⟩]
      simp
  · intro hne hpc hstag
    cases links with
    | nil => exact absurd rfl hne
    | cons x xs =>
      rw [mainLoopP2_cons, hstag]
      rw [if_neg (by simp), if_pos ⟨by simp [SLOW_PASS_START_COUNT]; omega, rfl⟩]
      simp

theorem stagnation_guard_fires_from_pass_three_witness :
    mainLoop (fun _ _ => FetchResult.resp 500) [(() : Unit)] 2 0 [] =
      ⟨3, 0, [()], [] ++ passLog (fun _ _ => FetchResult.resp 500) 3 [()]⟩ ∧
    mainLoopP2 (fun _ _ => FetchResult.resp 500) [(() : Unit)] 4 0 [] =
      ⟨5, 0, [()], [] ++ passLog (fun _ _ => FetchResult.resp 500) 5 [()]⟩ :=
  ⟨(stagnation_guard_fires_from_pass_three Unit (fun _ _ => FetchResult.resp 500)
      [()] 2 0 []).1 (by decide) (by decide) (by decide),
   (stagnation_guard_fires_from_pass_three Unit (fun _ _ => FetchResult.resp 500)
      [()] 4 0 []).2 (by decide) (by decide) (by decide)⟩

/-- C2: for every probe behaviour, including one where every probe of every
target always fails, each controller terminates after finitely many passes,
with an explicit bound: the ping-script.js retry loop ends with passCount at
most the input size plus 3, the part_002 loop at most the input size plus 5,
and the three pass loop of part_000 and part_001 runs at most one pass per
configured batch size. -/
theorem retry_loop_terminates_bounded (α : Type) (b : Nat → α → FetchResult)
    (fails : Nat → α → Bool) (configs : List Nat) (links : List α) :
    (mainRun b links).passCount ≤ links.length + 3 ∧
    (mainRunP2 b links).passCount ≤ links.length + 5 ∧
    (threePassLoop fails configs links 0 0).1 ≤ configs.length := by
  refine ⟨?_, ?_, ?_⟩
  · have h := mainLoop_passCount_le b (links.length * 4 + 3) links 0 0 [] (by omega)
    simpa [mainRun] using h
  · have h := mainLoopP2_passCount_le b (links.length * 8 + 5) links 0 0 [] (by omega)
    simpa [mainRunP2] using h
  · simpa using threePassLoop_passCount_le fails configs links 0 0

/-- C3 (code bug): with one link whose probe always returns 200, pass 1
succeeds for every link, the loop breaks before currentLinks is updated, and
the final state has totalSucceeded 1 while currentLinks still holds the one
input link: cumulative succeeded plus currently remaining is 2, not the
original total 1, at the terminal pass boundary. -/
theorem conservation_violated_at_success_break :
    (mainRun (fun _ _ => FetchResult.resp 200) [(() : Unit)]).totalSucceeded +
      (mainRun (fun _ _ => FetchResult.resp 200) [(() : Unit)]).currentLinks.length = 2 ∧
    ([(() : Unit)] : List Unit).length = 1 := by
  rw [mainRun_allLive_eval]
  exact ⟨rfl, rfl⟩

/-- C4 (code bug): a target that succeeds in a pass can appear in the final
unresolved output: with one link whose probe always returns 200, the pass 1
probe succeeds (fetchFails is false and the logged outcome is Live), yet the
final currentLinks, persisted as the unresolvable output, still contains the
link, because the zero failure break precedes the currentLinks update. -/
theorem succeeded_target_in_unresolvable_output :
    (mainRun (fun _ _ => FetchResult.resp 200) [(() : Unit)]).currentLinks = [()] ∧
    fetchFails (FetchResult.resp 200) = false ∧
    (mainRun (fun _ _ => FetchResult.resp 200) [(() : Unit)]).totalSucceeded = 1 ∧
    (mainRun (fun _ _ => FetchResult.resp 200) [(() : Unit)]).log =
      [(1, (), Outcome.live)] := by
  rw [mainRun_allLive_eval]
  exact ⟨rfl, by decide, rfl, rfl⟩

/-- C5 counterexample: the probe classifies a surfaced 304 response (a 3xx
status, not followed as a redirect) as Unreachable with bad status 304, not
as Live, because the ok test accepts only 2xx: this refutes the statement
that every response with a 2xx or 3xx status is classified Live. -/
theorem status_304_classified_unreachable :
    outcomeOf (FetchResult.resp 304) = Outcome.badStatus 304 ∧
    outcomeOf (FetchResult.resp 304) ≠ Outcome.live ∧
    statusOk 304 = false := by
  decide

/-- C5 (amended): a response whose status is outside 2xx (response.ok false)
is classified Unreachable with bad status carrying the numeric code, and a
2xx response is classified Live; the ok test is exactly 200 to 299.
Redirects are followed by the fetch call, so most 3xx responses never
surface, but one that does (such as 304) falls in the bad status case. -/
theorem classification_amended (s : Nat) :
    (statusOk s = true → outcomeOf (FetchResult.resp s) = Outcome.live) ∧
    (statusOk s = false → outcomeOf (FetchResult.resp s) = Outcome.badStatus s) ∧
    (statusOk s = true ↔ 200 ≤ s ∧ s ≤ 299) := by
  refine ⟨?_, ?_, ?_⟩
  · intro h
    simp [outcomeOf, h]
  · intro h
    simp [outcomeOf, h]
  · simp [statusOk]

theorem classification_amended_witness :
    outcomeOf (FetchResult.resp 200) = Outcome.live ∧
    outcomeOf (FetchResult.resp 404) = Outcome.badStatus 404 :=
  ⟨(classification_amended 200).1 (by decide), (classification_amended 404).2.1 (by decide)⟩

/-- C6: the probe never propagates an exception: for every fetch result,
including a thrown network error, ping answers in the ok channel; a network
error yields the link back with a transport failure classification; a pass
run in the exception channel, in either mode, completes with the failed
sublist rather than aborting, whatever the probe results; and each pass logs
every link of its input exactly once. -/
theorem probe_never_propagates_exception (α : Type) :
    (∀ (l : α) (f : FetchResult), ∃ r, ping l f = Except.ok r) ∧
    (∀ (l : α) (m : Nat), ping l (FetchResult.netError m) = Except.ok (some l) ∧
      outcomeOf (FetchResult.netError m) = Outcome.transportFailure m) ∧
    (∀ (bh : α → FetchResult) (links : List α),
      seqPassE (fun l => ping l (bh l)) links =
        Except.ok (sequentialPingPass (fun l => fetchFails (bh l)) links)) ∧
    (∀ (bh : α → FetchResult) (bs : Nat) (links : List α),
      concPassE (fun l => ping l (bh l)) bs links =
        Except.ok (concurrentPingPass (fun l => fetchFails (bh l)) bs links)) ∧
    (∀ (b : Nat → α → FetchResult) (pc : Nat) (links : List α),
      (passLog b pc links).map (fun e => e.2.1) = links) := by
  refine ⟨?_, ?_, ?_, ?_, ?_⟩
  · intro l f
    exact ⟨_, ping_eq l f⟩
  · intro l m
    exact ⟨rfl, rfl⟩
  · intro bh links
    exact seqPassE_ok bh links
  · intro bh bs links
    exact concPassE_ok bh bs links
  · intro b pc links
    induction links with
    | nil => rfl
    | cons l ls ih => simpa [passLog] using ih

/-- C7 counterexample: two behaviours whose probes of the one target always
fail but with different outcomes (bad status 404 versus 500) produce
identical final unresolved outputs, while the classified outcomes and the
observed logs differ: the persisted unresolved output holds bare targets and
does not pair a target with its last ProbeOutcome. -/
theorem unresolved_output_drops_outcome :
    (mainRun (fun _ _ => FetchResult.resp 404) [(() : Unit)]).currentLinks =
      (mainRun (fun _ _ => FetchResult.resp 500) [(() : Unit)]).currentLinks ∧
    outcomeOf (FetchResult.resp 404) ≠ outcomeOf (FetchResult.resp 500) ∧
    (mainRun (fun _ _ => FetchResult.resp 404) [(() : Unit)]).log ≠
      (mainRun (fun _ _ => FetchResult.resp 500) [(() : Unit)]).log := by
  rw [mainRun_all404_eval, mainRun_all500_eval]
  exact ⟨rfl, by decide, by decide⟩

/-- C7 (amended): the persisted unresolved output holds bare targets; the
last classified outcome of each target is observed in the per probe log, not
stored in the output. A target whose every probe is classified with one
fixed non Live outcome o is present in the final unresolved output of either
controller, its pass 1 probe is logged with o, and every log entry of the
run for it carries o, in particular the last one, regardless of which pass
policy last probed it. -/
theorem dead_target_in_output_with_logged_outcome (α : Type) (b : Nat → α → FetchResult)
    (t : α) (links : List α) (o : Outcome) (ht : t ∈ links)
    (hout : ∀ p, outcomeOf (b p t) = o) (ho : o ≠ Outcome.live) :
    t ∈ (mainRun b links).currentLinks ∧
    (1, t, o) ∈ (mainRun b links).log ∧
    (∀ e ∈ (mainRun b links).log, e.2.1 = t → e.2.2 = o) ∧
    t ∈ (mainRunP2 b links).currentLinks ∧
    (1, t, o) ∈ (mainRunP2 b links).log ∧
    (∀ e ∈ (mainRunP2 b links).log, e.2.1 = t → e.2.2 = o) := by
  have hf : ∀ p, fetchFails (b p t) = true := fun p =>
    (fetchFails_iff (b p t)).mpr (by rw [hout p]; exact ho)
  have hnil : ∀ e ∈ ([] : List (Nat × α × Outcome)), e.2.2 = outcomeOf (b e.1 e.2.1) := by
    intro e he
    exact absurd he (List.not_mem_nil e)
  cases links with
  | nil => exact absurd ht (List.not_mem_nil t)
  | cons x xs =>
    refine ⟨?_, ?_, ?_, ?_, ?_, ?_⟩
    · exact mainLoop_mem b t hf _ (x :: xs) 0 0 [] (le_refl _) ht
    · have h1 := mainRun_pass1_logged b x xs t ht
      rwa [hout 1] at h1
    · intro e he het
      have h2 := mainLoop_log_ok b _ (x :: xs) 0 0 [] (le_refl _) hnil e he
      rw [h2, het, hout e.1]
    · exact mainLoopP2_mem b t hf _ (x :: xs) 0 0 [] (le_refl _) ht
    · have h1 := mainRunP2_pass1_logged b x xs t ht
      rwa [hout 1] at h1
    · intro e he het
      have h2 := mainLoopP2_log_ok b _ (x :: xs) 0 0 [] (le_refl _) hnil e he
      rw [h2, het, hout e.1]

theorem dead_target_in_output_with_logged_outcome_witness :
    () ∈ (mainRun (fun _ _ => FetchResult.resp 404) [(() : Unit)]).currentLinks ∧
    (1, (), Outcome.badStatus 404) ∈
      (mainRun (fun _ _ => FetchResult.resp 404) [(() : Unit)]).log :=
  ⟨(dead_target_in_output_with_logged_outcome Unit (fun _ _ => FetchResult.resp 404) () [()]
      (Outcome.badStatus 404) (by decide) (by intro p; rfl) (by decide)).1,
   (dead_target_in_output_with_logged_outcome Unit (fun _ _ => FetchResult.resp 404) () [()]
      (Outcome.badStatus 404) (by decide) (by intro p; rfl) (by decide)).2.1⟩

/-- C8: the inline retry prober of part_001 makes up to MAX_PING_ATTEMPTS = 3
attempts with a sleep of INLINE_RETRY_DELAY_MS = 10 between consecutive
attempts, returns success immediately when the first attempt is ok with no
further attempt and no sleep, returns failure exactly when all 3 attempts
fail with the final attempt classified last, and with a single target that
fails twice then succeeds on the third attempt, the three pass controller
finishes with totalSucceeded 1 and no remaining links after its first
executed pass (the returned counter 2 is the passCount variable, incremented
once more before the loop notices the empty set and breaks). -/
theorem inline_retry_behaviour (α : Type) (l : α) (f : Nat → FetchResult) :
    (fetchOk (f 1) = true →
      pingRetry l f = (none, [REvent.attempt 1 (outcomeOf (f 1))])) ∧
    (fetchOk (f 1) = false → fetchOk (f 2) = false → fetchOk (f 3) = false →
      pingRetry l f = (some l,
        [REvent.attempt 1 (outcomeOf (f 1)), REvent.sleep INLINE_RETRY_DELAY_MS,
         REvent.attempt 2 (outcomeOf (f 2)), REvent.sleep INLINE_RETRY_DELAY_MS,
         REvent.attempt 3 (outcomeOf (f 3))])) ∧
    (fetchOk (f 1) = false → fetchOk (f 2) = false → fetchOk (f 3) = true →
      pingRetry l f = (none,
        [REvent.attempt 1 (outcomeOf (f 1)), REvent.sleep INLINE_RETRY_DELAY_MS,
         REvent.attempt 2 (outcomeOf (f 2)), REvent.sleep INLINE_RETRY_DELAY_MS,
         REvent.attempt 3 (outcomeOf (f 3))])) ∧
    threePassLoop (fun _ t => ((pingRetry t scenFetch).1).isSome) [7, 9, 1] [(() : Unit)] 0 0 =
      (2, 1, []) := by
  refine ⟨?_, ?_, ?_, ?_⟩
  · intro h1
    simp [pingRetry, pingAttempts, MAX_PING_ATTEMPTS, h1]
  · intro h1 h2 h3
    simp [pingRetry, pingAttempts, MAX_PING_ATTEMPTS, h1, h2, h3]
  · intro h1 h2 h3
    simp [pingRetry, pingAttempts, MAX_PING_ATTEMPTS, h1, h2, h3]
  · simp [threePassLoop, concurrentPingPass, pingRetry, pingAttempts, MAX_PING_ATTEMPTS,
      scenFetch, fetchOk, statusOk]

theorem inline_retry_behaviour_witness :
    pingRetry (0 : Nat) scenFetch = (none,
      [REvent.attempt 1 (outcomeOf (scenFetch 1)), REvent.sleep INLINE_RETRY_DELAY_MS,
       REvent.attempt 2 (outcomeOf (scenFetch 2)), REvent.sleep INLINE_RETRY_DELAY_MS,
       REvent.attempt 3 (outcomeOf (scenFetch 3))]) :=
  (inline_retry_behaviour Nat 0 scenFetch).2.2.1 (by decide) (by decide) (by decide)

/-- C9: in the slow sequential mode the pass probes the links one at a time
in strict input order, sleeping RETRY_DELAY_MS after each probe, successful
or failed, before the next one: the timeline is exactly the per link pair of
a probe and a sleep, concatenated in input order; the probed links in order
are exactly the input; the failed probes of the timeline, in order, are the
failed subset of the pass; and in the part_000 variant a batch size of 1
makes the chunks the singleton lists of the links in input order, so that
pass is also one link at a time in input order. -/
theorem sequential_pass_order_and_delay (α : Type) (bh : α → FetchResult) (links : List α) :
    seqTrace bh links =
      (links.map (fun l => [Event.probe l (outcomeOf (bh l)),
        Event.sleep RETRY_DELAY_MS])).flatten ∧
    (seqTrace bh links).filterMap probeOf = links ∧
    (seqTrace bh links).filterMap
        (fun e => match e with
          | Event.probe l out => if out = Outcome.live then none else some l
          | Event.sleep _ => none) =
      sequentialPingPass (fun l => fetchFails (bh l)) links ∧
    chunksOf 1 links = links.map (fun l => [l]) :=
  ⟨seqTrace_eq_join bh links, seqTrace_probes bh links, seqTrace_failed bh links,
    chunksOf_one links⟩

/-- C10: in both pass modes the failed subset returned by a pass is exactly
the filter of the pass input on the failing predicate, hence a sublist of
the input: if link A precedes link B in the pass input and both fail, A
precedes B in the returned failed list. The concurrent equations assume a
positive batch size, which is what every call site uses. -/
theorem failed_subset_preserves_order (α : Type) (fails : α → Bool) (bs pc : Nat)
    (links : List α) :
    (1 ≤ bs → concurrentPingPass fails bs links = links.filter fails) ∧
    sequentialPingPass fails links = links.filter fails ∧
    (1 ≤ bs → (concurrentPingPass fails bs links).Sublist links) ∧
    (sequentialPingPass fails links).Sublist links ∧
    (1 ≤ bs → pingPass fails bs pc links = links.filter fails) := by
  refine ⟨fun h => concurrentPingPass_eq_filter fails bs h links,
    sequentialPingPass_eq_filter fails links, fun h => ?_, ?_,
    fun h => pingPass_eq_filter fails bs pc h links⟩
  · rw [concurrentPingPass_eq_filter fails bs h links]
    exact List.filter_sublist links
  · rw [sequentialPingPass_eq_filter]
    exact List.filter_sublist links

theorem failed_subset_preserves_order_witness :
    concurrentPingPass (fun l => decide (l = 1)) 2 [0, 1, 2] = [1] :=
  ((failed_subset_preserves_order Nat (fun l => decide (l = 1)) 2 5 [0, 1, 2]).1
    (by decide)).trans (by decide)

end LinkPing
